/-
Verification development for the arithmetic-circuit constraint system in
src/src/libzerocoin/ArithmeticCircuit.cpp (witness assignment, constraint
template construction, challenge folding, consistency checker).

The embedding is parametric in the group parameters (generators g, h, group
order q, serial bit length L = ZKP_SERIALSIZE, grid dimensions M = ZKP_M,
N = ZKP_N, ZKP_PADS), since the parameter header is not part of the visible
sources.  Matrices are total functions Nat → Nat → Int; a C++ std::vector
read is modelled as List.getD _ 0 (in-range everywhere except for the one
out-of-range read analysed at setYPoly re-invocation).
-/
import Mathlib

/-- Modelled from the spec: CBigNum `mul_mod` (libzerocoin/bignum.h is not under
src/).  Spec section 3 requires canonical non-negative residues in [0, q);
`Int.emod` normalizes exactly this way (e.g. (-1) % 23 = 22). -/
def mulMod (a b m : Int) : Int := (a * b) % m

/-- Modelled from the spec: CBigNum modular inverse (bignum.h absent).
BN_mod_inverse returns the unique canonical inverse in [0, m) when it exists;
this definition selects exactly that residue (and 0 when none exists). -/
def invMod (a m : Int) : Int :=
  match (List.range m.toNat).find? (fun k => a * (k : Int) % m == 1) with
  | some k => (k : Int)
  | none => 0

/-- Modelled from the spec: CBigNum `pow_mod` (bignum.h absent).  Spec section 3:
modular exponentiation, where a negative exponent means exponentiation by the
modular inverse of the base. -/
def powMod (b e m : Int) : Int :=
  if 0 ≤ e then (b ^ e.toNat) % m else ((invMod b m) ^ (-e).toNat) % m

abbrev CBN_vector := Nat → Int
abbrev CBN_matrix := Nat → Nat → Int

/-- Modelled from the spec: zkplib `unit_vector` (not under src/); spec glossary:
a vector with exactly one 1 entry at the chosen position. -/
def unit_vector (pos : Nat) : CBN_vector := fun j => if j = pos then 1 else 0

/-- Modelled from the spec: zkplib `vectorTimesConstant` (not under src/); the
source places unit vectors scaled by a constant into weight matrices, reduced
mod q. -/
def vectorTimesConstant (U : CBN_vector) (c q : Int) : CBN_vector :=
  fun j => (U j * c) % q

def sumRange (f : Nat → Int) : Nat → Int
  | 0 => 0
  | n + 1 => sumRange f n + f n

/-- Modelled from the spec: zkplib `dotProduct` (not under src/); spec section 3:
the weighted dot product of two length-n vectors, reduced mod q. -/
def dotProduct (u v : CBN_vector) (n : Nat) (q : Int) : Int :=
  (sumRange (fun j => u j * v j) n) % q

def matUpdate (m : CBN_matrix) (r c : Nat) (v : Int) : CBN_matrix :=
  fun i j => if i = r ∧ j = c then v else m i j

def zeroMat : CBN_matrix := fun _ _ => 0

/-- Modelled from the spec: ZerocoinParams and the ZKP_* grid constants (the
header is not under src/).  g, h are the coin-commitment generators (called a, b
inside ArithmeticCircuit.cpp), q the serialNumberSoKCommitmentGroup order,
L = ZKP_SERIALSIZE, M = ZKP_M rows, N = ZKP_N columns, pads = ZKP_PADS. -/
structure ZParams where
  g : Int
  h : Int
  q : Int
  L : Nat
  M : Nat
  N : Nat
  pads : Nat

structure CTemplate where
  wA : Nat → CBN_matrix
  wB : Nat → CBN_matrix
  wC : Nat → CBN_matrix
  K : List Int

/-- Modelled from the spec: PrivateCoin (not under src/) as consumed by
setWireValues: serial number S, randomness r, and the bit decomposition of r
delivered by getRandomnessBits (bit i = (r >> i) & 1); correctness of the bits
is hypothesised per theorem, exactly as the claims condition on it. -/
structure Coin where
  serial : Int
  rand : Int
  bits : Nat → Int

structure Circuit where
  params : ZParams
  A : CBN_matrix
  B : CBN_matrix
  C : CBN_matrix
  wA : Nat → CBN_matrix
  wB : Nat → CBN_matrix
  wC : Nat → CBN_matrix
  K : List Int
  YPowers : List Int
  YDash : CBN_vector
  wAj : CBN_matrix
  wBj : CBN_matrix
  wCj : CBN_matrix
  y_vec_neg : List Int
  serialNumber : Int
  randomness : Int
  y : Int
  r_bits : Nat → Int
  Kconst : Int

/-- ArithmeticCircuit constructor (ArithmeticCircuit.cpp lines 17-33): witness
and aggregated matrices default-initialised to zero, the weight templates and
constant vector copied from the parameters, YPowers and y_vec_neg empty. -/
def initCircuit (p : ZParams) (t : CTemplate) : Circuit :=
  { params := p, A := zeroMat, B := zeroMat, C := zeroMat,
    wA := t.wA, wB := t.wB, wC := t.wC, K := t.K,
    YPowers := [], YDash := fun _ => 0,
    wAj := zeroMat, wBj := zeroMat, wCj := zeroMat,
    y_vec_neg := [], serialNumber := 0, randomness := 0, y := 0,
    r_bits := fun _ => 0, Kconst := 0 }

/-- setPreConstraints, wA component (ArithmeticCircuit.cpp lines 95-170).
Row families, with n = ZKP_N and N = ZKP_SERIALSIZE = L in the source:
rows i < L (lines 107-118): wA[i][i/n] := unit_vector(k % n) with k = i+1;
rows 2L ≤ i < 3L-1 (lines 130-144): k = i-2L+2,
  wA[i][k/n] := unit(k % n) · (h^(2^(k-1)) - 1) mod q;
row 3L-1 (line 147): unit at flattened wire L+1;
rows 3L ≤ i < 4L-2 (lines 152-164): k = i-2L+2, unit at wire k;
all other rows untouched (zero). -/
def twA (p : ZParams) (i : Nat) : CBN_matrix :=
  if i < p.L then
    fun r c => if r = i / p.N then unit_vector ((i + 1) % p.N) c else 0
  else if i < 2 * p.L then zeroMat
  else if i < 3 * p.L - 1 then
    fun r c =>
      if r = (i - 2 * p.L + 2) / p.N then
        vectorTimesConstant (unit_vector ((i - 2 * p.L + 2) % p.N))
          (powMod p.h ((2 : Int) ^ (i - 2 * p.L + 1)) p.q - 1) p.q c
      else 0
  else if i = 3 * p.L - 1 then
    fun r c => if r = (p.L + 1) / p.N then unit_vector ((p.L + 1) % p.N) c else 0
  else if i < 4 * p.L - 2 then
    fun r c => if r = (i - 2 * p.L + 2) / p.N then unit_vector ((i - 2 * p.L + 2) % p.N) c else 0
  else zeroMat

/-- setPreConstraints, wB component (ArithmeticCircuit.cpp lines 95-170):
rows i < L: wB[i][i/n] := unit((i+1) % n) · (-1) mod q;
rows 2L ≤ i < 3L-1: ell = i-L+1, wB[i][ell/n] := unit(ell % n) · (-1) mod q;
row 3L-1 (lines 148-149): wB[3L-1][0] := unit(1) · (1-h) mod q;
row 4L-2 (lines 166-169): unit at flattened wire 2L;
all other rows zero. -/
def twB (p : ZParams) (i : Nat) : CBN_matrix :=
  if i < p.L then
    fun r c => if r = i / p.N then vectorTimesConstant (unit_vector ((i + 1) % p.N)) (-1) p.q c else 0
  else if i < 2 * p.L then zeroMat
  else if i < 3 * p.L - 1 then
    fun r c =>
      if r = (i - p.L + 1) / p.N then
        vectorTimesConstant (unit_vector ((i - p.L + 1) % p.N)) (-1) p.q c
      else 0
  else if i = 3 * p.L - 1 then
    fun r c => if r = 0 then vectorTimesConstant (unit_vector 1) (1 - p.h) p.q c else 0
  else if i = 4 * p.L - 2 then
    fun r c => if r = (2 * p.L) / p.N then unit_vector ((2 * p.L) % p.N) c else 0
  else zeroMat

/-- setPreConstraints, wC component (ArithmeticCircuit.cpp lines 95-170):
rows L ≤ i < 2L (lines 120-128): k = i-L+1, wC[i][k/n] := unit(k % n);
rows 3L ≤ i < 4L-2 (lines 152-164): ell = i-2L+1,
  wC[i][ell/n] := unit(ell % n) · (-1) mod q;
all other rows zero. -/
def twC (p : ZParams) (i : Nat) : CBN_matrix :=
  if i < p.L then zeroMat
  else if i < 2 * p.L then
    fun r c => if r = (i - p.L + 1) / p.N then unit_vector ((i - p.L + 1) % p.N) c else 0
  else if i < 3 * p.L then zeroMat
  else if i < 4 * p.L - 2 then
    fun r c =>
      if r = (i - 2 * p.L + 1) / p.N then
        vectorTimesConstant (unit_vector ((i - 2 * p.L + 1) % p.N)) (-1) p.q c
      else 0
  else zeroMat

/-- setPreConstraints, constant vector K (ArithmeticCircuit.cpp lines 98, 116,
126, 142, 150, 162): resized to 4L zeros, then K[i] = 1 for i < L, 0 for the
zero-product rows, (-1) mod q for the doubling rows, h at row 3L-1, 0 for the
chaining rows; rows 4L-2 and 4L-1 keep their resize value 0. -/
def tK (p : ZParams) : List Int :=
  (List.range (4 * p.L)).map fun i =>
    if i < p.L then 1
    else if i < 2 * p.L then 0
    else if i < 3 * p.L - 1 then (-1) % p.q
    else if i = 3 * p.L - 1 then p.h
    else 0

/-- ArithmeticCircuit::setPreConstraints (lines 79-171). -/
def setPreConstraints (p : ZParams) : CTemplate := ⟨twA p, twB p, twC p, tK p⟩

/-- First wire-assignment loop (ArithmeticCircuit.cpp lines 51-57): slot t at
(t / N, t % N) gets A = r_bits[t] mod q, B = (r_bits[t] - 1) mod q, C = 0. -/
def loop1 (p : ZParams) (bits : Nat → Int) (A B C : CBN_matrix) :
    Nat → CBN_matrix × CBN_matrix × CBN_matrix
  | 0 => (A, B, C)
  | t + 1 =>
    let st := loop1 p bits A B C t
    let row := t / p.N
    let col := t % p.N
    (matUpdate st.1 row col (bits t % p.q),
     matUpdate st.2.1 row col ((bits t - 1) % p.q),
     matUpdate st.2.2 row col 0)

structure WireState where
  A : CBN_matrix
  B : CBN_matrix
  C : CBN_matrix
  x : Int
  prod : Int

/-- Second wire-assignment loop (ArithmeticCircuit.cpp lines 59-76): t counts
iterations of the for loop over i = L+t; product is multiplied by x mod q and
stored in A, x is refreshed from the next bit, B gets x mod q, C gets A·B mod q,
and at i = 2L-2 both A and C are additionally multiplied by g^S mod q. -/
def loop2 (p : ZParams) (serial : Int) (bits : Nat → Int) (A B C : CBN_matrix) :
    Nat → WireState
  | 0 => ⟨A, B, C, bits 0 * (p.h - 1) + 1, 1⟩
  | t + 1 =>
    let st := loop2 p serial bits A B C t
    let i := p.L + t
    let row := i / p.N
    let col := i % p.N
    let prod2 := mulMod st.prod st.x p.q
    let A2 := matUpdate st.A row col prod2
    let x2 := bits (t + 1) * (powMod p.h ((2 : Int) ^ (t + 1)) p.q - 1) + 1
    let B2 := matUpdate st.B row col (x2 % p.q)
    let C2 := matUpdate st.C row col (mulMod prod2 (x2 % p.q) p.q)
    if i = 2 * p.L - 2 then
      let gS := powMod p.g serial p.q
      ⟨matUpdate A2 row col (mulMod prod2 gS p.q), B2,
       matUpdate C2 row col (mulMod (mulMod prod2 (x2 % p.q) p.q) gS p.q), x2, prod2⟩
    else ⟨A2, B2, C2, x2, prod2⟩

/-- ArithmeticCircuit::setWireValues (lines 35-77). -/
def setWireValues (c : Circuit) (coin : Coin) : Circuit :=
  let p := c.params
  let l1 := loop1 p coin.bits c.A c.B c.C p.L
  let st := loop2 p coin.serial coin.bits l1.1 l1.2.1 l1.2.2 (p.L - 1)
  { c with serialNumber := coin.serial, randomness := coin.rand, r_bits := coin.bits,
           A := st.A, B := st.B, C := st.C }

/-- ArithmeticCircuit::setConstraints (lines 224-232): overwrites matrix-row
(2L-3)/N of wC[4L-3] with the unit vector at column (2L-3)%N scaled by
-(g^S mod q) mod q. -/
def setConstraints (c : Circuit) (serial : Int) : Circuit :=
  let p := c.params
  let x := mulMod (-1) (powMod p.g serial p.q) p.q
  { c with wC := fun i =>
      if i = 4 * p.L - 3 then
        fun r col =>
          if r = (2 * p.L - 3) / p.N then
            vectorTimesConstant (unit_vector ((2 * p.L - 3) % p.N)) x p.q col
          else c.wC i r col
      else c.wC i }

structure SPoly where
  s_a1 : List (List (Nat × Int))
  s_a2 : List (List (Nat × Int))
  s_b1 : List (List (Nat × Int))
  s_b2 : List (List (Nat × Int))
  s_c1 : List (List (Nat × Int))
  s_c2 : List (List (Nat × Int))

/-- The nonzero entries (i, w[i][rowIdx][k]) of column k of matrix-row rowIdx,
collected over template rows i in ascending order (push_back order of
set_s_poly's inner loop, ArithmeticCircuit.cpp lines 182-189 etc.). -/
def sparseCol (w : Nat → CBN_matrix) (rowIdx k : Nat) : Nat → List (Nat × Int)
  | 0 => []
  | i + 1 =>
    sparseCol w rowIdx k i ++ (if w i rowIdx k ≠ 0 then [(i, w i rowIdx k)] else [])

/-- ArithmeticCircuit::set_s_poly (lines 173-222).  For every column k the
source builds temp1 from matrix-row 0 and temp2 from matrix-row 1, but then
executes s_a1.push_back(temp1); s_a2.push_back(temp1) (and likewise for b and
c): temp2 is computed and discarded, so the second-row lists are copies of the
first-row lists. -/
def set_s_poly (p : ZParams) (tA tB tC : Nat → CBN_matrix) (rows : Nat) : SPoly :=
  { s_a1 := (List.range p.N).map fun k => sparseCol tA 0 k rows
    s_a2 := (List.range p.N).map fun k =>
      let _temp2 := sparseCol tA 1 k rows
      sparseCol tA 0 k rows
    s_b1 := (List.range p.N).map fun k => sparseCol tB 0 k rows
    s_b2 := (List.range p.N).map fun k =>
      let _temp2 := sparseCol tB 1 k rows
      sparseCol tB 0 k rows
    s_c1 := (List.range p.N).map fun k => sparseCol tC 0 k rows
    s_c2 := (List.range p.N).map fun k =>
      let _temp2 := sparseCol tC 1 k rows
      sparseCol tC 0 k rows }

/-- The list [y^1 mod q, ..., y^count mod q] built with a running register that
starts at temp (push_back loop of set_YPowers2, ArithmeticCircuit.cpp lines
302-307). -/
def powListFrom (y q temp : Int) : Nat → List Int
  | 0 => []
  | n + 1 =>
    let t := mulMod temp y q
    t :: powListFrom y q t n

/-- The y_vec_neg push_back loop of set_YPowers2 (lines 309-315): the running
register is multiplied by ym each step and the pushed element is additionally
multiplied by 2 mod q. -/
def negList (ym q temp : Int) : Nat → List Int
  | 0 => []
  | n + 1 =>
    let t := mulMod temp ym q
    mulMod t 2 q :: negList ym q t n

/-- The Kconst accumulation loop of set_Kconst (lines 378-380): stepwise
(Kconst + K[i] · YPowers[4L+M+1+i] mod q) mod q over i < n. -/
def kconstSum (Kv YP : List Int) (off : Nat) (q : Int) : Nat → Int
  | 0 => 0
  | n + 1 =>
    (kconstSum Kv YP off q n + mulMod (Kv.getD n 0) (YP.getD (off + n) 0) q) % q

/-- ArithmeticCircuit::setYPoly (lines 234-248): stores y, rebuilds YPowers =
[1, y, ..., y^(8L+M+1)] and y_vec_neg (set_YPowers2, lines 297-316), sets
YDash[i] = YPowers[M·(i+1)] for i < N (set_YDash, lines 318-323), then
set_Kconst (lines 372-381) pushes g^S mod q onto K and folds the grown K by
the powers YPowers[4L+M+1+i].  The calls set_wABj() and set_wCj() are commented
out in the source, so wAj, wBj, wCj are not written. -/
def setYPoly (c : Circuit) (y : Int) : Circuit :=
  let p := c.params
  let YP := (1 : Int) :: powListFrom y p.q 1 (8 * p.L + p.M + 1)
  let ym := powMod y (-(p.M : Int)) p.q
  let yv := negList ym p.q 1 (p.N + p.pads)
  let YD : CBN_vector := fun i => if i < p.N then YP.getD (p.M * (i + 1)) 0 else c.YDash i
  let K2 := c.K ++ [powMod p.g c.serialNumber p.q]
  { c with y := y, YPowers := YP, y_vec_neg := yv, YDash := YD, K := K2,
           Kconst := kconstSum K2 YP (4 * p.L + p.M + 1) p.q K2.length }

/-- Accumulator of ArithmeticCircuit::sumWiresDotWs (lines 250-260): for each
matrix-row j the three dot products are added mod q in the order A, B, C. -/
def swdwAux (c : Circuit) (i : Nat) : Nat → Int
  | 0 => 0
  | j + 1 =>
    let q := c.params.q
    let n := c.params.N
    let s := swdwAux c i j
    let s1 := (s + dotProduct (c.A j) (c.wA i j) n q) % q
    let s2 := (s1 + dotProduct (c.B j) (c.wB i j) n q) % q
    (s2 + dotProduct (c.C j) (c.wC i j) n q) % q

/-- ArithmeticCircuit::sumWiresDotWs (lines 250-260). -/
def sumWiresDotWs (c : Circuit) (i : Nat) : Int := swdwAux c i c.params.M

/-- Accumulator of ArithmeticCircuit::AiDotBiYDash (lines 279-286). -/
def aiDotAux (c : Circuit) (i : Nat) : Nat → Int
  | 0 => 0
  | j + 1 => (aiDotAux c i j + c.A i j * c.B i j * c.YDash j) % c.params.q

/-- ArithmeticCircuit::AiDotBiYDash (lines 279-286). -/
def AiDotBiYDash (c : Circuit) (i : Nat) : Int := aiDotAux c i c.params.N

/-- First loop of ArithmeticCircuit::sumWiresDotWPoly (lines 266-270): the
per-row products A_i·B_i·YDash weighted by y^(i+1). -/
def swpAux1 (c : Circuit) : Nat → Int
  | 0 => 0
  | i + 1 =>
    (swpAux1 c i +
      mulMod (AiDotBiYDash c i) (powMod c.y (((i : Int)) + 1) c.params.q) c.params.q) % c.params.q

/-- Second loop of ArithmeticCircuit::sumWiresDotWPoly (lines 271-275): dot
products of the witness rows against wAj, wBj, wCj, continuing the sum. -/
def swpAux2 (c : Circuit) : Nat → Int
  | 0 => swpAux1 c c.params.M
  | i + 1 =>
    let q := c.params.q
    let n := c.params.N
    let s := swpAux2 c i
    let s1 := (s + dotProduct (c.A i) (c.wAj i) n q) % q
    let s2 := (s1 + dotProduct (c.B i) (c.wBj i) n q) % q
    (s2 + dotProduct (c.C i) (c.wCj i) n q) % q

/-- ArithmeticCircuit::sumWiresDotWPoly (lines 262-277). -/
def sumWiresDotWPoly (c : Circuit) : Int := swpAux2 c c.params.M

inductive CheckResult where
  | ok
  | wireProductMismatch
  | commitmentMismatch
  | constraintRowMismatch
  | aggregateIdentityMismatch
deriving DecidableEq

/-- ArithmeticCircuit::check (lines 384-406): the four consistency checks, in
source order, reporting the first failing category (error codes 1-4). -/
def check (c : Circuit) : CheckResult :=
  let p := c.params
  let q := p.q
  if ¬ (∀ i, i < p.M → ∀ j, j < p.N → mulMod (c.A i j) (c.B i j) q = c.C i j) then
    .wireProductMismatch
  else if ¬ (c.C (p.M - 1) 0 =
      mulMod (powMod p.g c.serialNumber q) (powMod p.h c.randomness q) q) then
    .commitmentMismatch
  else if ¬ (∀ i, i < 4 * p.L - 2 → c.K.getD i 0 = sumWiresDotWs c i) then
    .constraintRowMismatch
  else if ¬ (sumWiresDotWPoly c = c.Kconst) then
    .aggregateIdentityMismatch
  else .ok

/-- The toy parameter set of spec section 8: q = 23, g = 2, h = 3, L = 4, with a
3×3 grid (9 ≥ 2L+1 wire slots, final accumulation wire 2L-2 = 6 sitting at
(M-1, 0)). -/
def toyParams : ZParams := ⟨2, 3, 23, 4, 3, 3, 1⟩

def toyTemplate : CTemplate := setPreConstraints toyParams

/-- The spec section 8 concrete coin: S = 5, r = 9 (binary 1001, LSB first). -/
def toyCoin : Coin := ⟨5, 9, fun i => [(1 : Int), 0, 0, 1].getD i 0⟩

def toyC1 : Circuit := setWireValues (initCircuit toyParams toyTemplate) toyCoin

def toyC2 : Circuit := setConstraints toyC1 5

def toyC3 : Circuit := setYPoly toyC2 7

/-- A handcrafted witness assignment for the toy parameters that satisfies the
elementwise rank-1 identity, the commitment equation and all 16 constraint
rows of the (setConstraints-completed) template. -/
def exA : CBN_matrix := fun i j => ([[(1 : Int), 1, 1], [13, 1, 3], [4, 14, 0]].getD i []).getD j 0

def exB : CBN_matrix := fun i j => ([[(0 : Int), 0, 0], [0, 0, 9], [6, 6, 0]].getD i []).getD j 0

def exC : CBN_matrix := fun i j => ([[(0 : Int), 0, 0], [0, 0, 4], [1, 15, 0]].getD i []).getD j 0

def cEx : Circuit := { toyC2 with A := exA, B := exB, C := exC }

def cEx2 : Circuit := setYPoly cEx 2

/-- The elementwise rank-1 identity A·B ≡ C (mod q), as the checker computes it
(mul_mod of the stored A and B entries compared with the stored C entry). -/
def Rank1 (q : Int) (A B C : CBN_matrix) : Prop :=
  ∀ i j : Nat, mulMod (A i j) (B i j) q = C i j

/-- The factor x as maintained by the second wire loop: x starts as
r_bits[0]·(h-1)+1 (raw h, line 61) and is refreshed to
r_bits[t+1]·(h^(2^(t+1)) mod q - 1)+1 (line 67). -/
def xDef (p : ZParams) (bits : Nat → Int) : Nat → Int
  | 0 => bits 0 * (p.h - 1) + 1
  | t + 1 => bits (t + 1) * (powMod p.h ((2 : Int) ^ (t + 1)) p.q - 1) + 1

/-- The running product of the second wire loop: product accumulates the x
factors with mul_mod at every step (line 65). -/
def prodDef (p : ZParams) (bits : Nat → Int) : Nat → Int
  | 0 => 1
  | t + 1 => mulMod (prodDef p bits t) (xDef p bits t) p.q

/-- The partial sum of R's binary digits: bitSum R t = sum over j < t of
(R / 2^j mod 2) · 2^j. -/
def bitSum (R : Nat) : Nat → Nat
  | 0 => 0
  | t + 1 => bitSum R t + R / 2 ^ t % 2 * 2 ^ t

/-- A circuit carrying the constructed template together with an arbitrary
witness assignment A, B, C (read-off helper for the row-semantics claims). -/
def withWitness (p : ZParams) (t : CTemplate) (A B C : CBN_matrix) : Circuit :=
  { initCircuit p t with A := A, B := B, C := C }

/-! Modular-arithmetic and summation helper lemmas. -/

theorem emodIdem (a q : Int) : a % q % q = a % q := Int.emod_emod_of_dvd a dvd_rfl

theorem mulEmodLeft (a b q : Int) : a % q * b % q = a * b % q := by
  rw [Int.mul_emod, emodIdem, ← Int.mul_emod]

theorem mulEmodRight (a b q : Int) : a * (b % q) % q = a * b % q := by
  rw [Int.mul_emod, emodIdem, ← Int.mul_emod]

theorem sumRange_congr {f g : Nat → Int} : ∀ {n : Nat}, (∀ j, j < n → f j = g j) →
    sumRange f n = sumRange g n
  | 0, _ => rfl
  | n + 1, h => by
    simp only [sumRange]
    rw [sumRange_congr (fun j hj => h j (Nat.lt_succ_of_lt hj)), h n (Nat.lt_succ_self n)]

theorem sumRange_add (f g : Nat → Int) : ∀ n : Nat,
    sumRange (fun j => f j + g j) n = sumRange f n + sumRange g n
  | 0 => rfl
  | n + 1 => by simp only [sumRange, sumRange_add f g n]; ring

theorem sumRange_zero {f : Nat → Int} : ∀ {n : Nat}, (∀ j, j < n → f j = 0) →
    sumRange f n = 0
  | 0, _ => rfl
  | n + 1, h => by
    simp only [sumRange]
    rw [sumRange_zero (fun j hj => h j (Nat.lt_succ_of_lt hj)), h n (Nat.lt_succ_self n),
      add_zero]

theorem sumRange_single {f : Nat → Int} {pos : Nat} : ∀ {n : Nat}, pos < n →
    (∀ j, j < n → j ≠ pos → f j = 0) → sumRange f n = f pos := by
  intro n
  induction n with
  | zero => intro h; exact absurd h (Nat.not_lt_zero pos)
  | succ m ih =>
    intro hpos h
    simp only [sumRange]
    by_cases hm : pos = m
    · subst hm
      rw [sumRange_zero (fun j hj => h j (Nat.lt_succ_of_lt hj) (Nat.ne_of_lt hj)), zero_add]
    · have hlt : pos < m := lt_of_le_of_ne (Nat.lt_succ_iff.mp hpos) hm
      rw [ih hlt (fun j hj hne => h j (Nat.lt_succ_of_lt hj) hne),
        h m (Nat.lt_succ_self m) (fun hc => hm hc.symm), add_zero]

theorem dot_zero_right (u : CBN_vector) (n : Nat) (q : Int) :
    dotProduct u (fun _ => 0) n q = 0 := by
  unfold dotProduct
  rw [sumRange_zero (fun j _ => by simp), Int.zero_emod]

theorem dot_unit (u : CBN_vector) (pos n : Nat) (q : Int) (h : pos < n) :
    dotProduct u (unit_vector pos) n q = u pos % q := by
  unfold dotProduct
  rw [sumRange_single h (fun j _ hne => by simp [unit_vector, hne])]
  simp [unit_vector]

theorem dot_vtc_unit (u : CBN_vector) (pos : Nat) (x : Int) (n : Nat) (q : Int) (h : pos < n) :
    dotProduct u (vectorTimesConstant (unit_vector pos) x q) n q = u pos * (x % q) % q := by
  unfold dotProduct
  rw [sumRange_single h (fun j _ hne => by simp [vectorTimesConstant, unit_vector, hne])]
  simp [vectorTimesConstant, unit_vector, emodIdem]

/-! List lemmas for YPowers / y_vec_neg / K. -/

theorem powListFrom_length (y q : Int) : ∀ (n : Nat) (temp : Int),
    (powListFrom y q temp n).length = n
  | 0, _ => rfl
  | n + 1, temp => by simp [powListFrom, powListFrom_length y q n]

theorem negList_length (ym q : Int) : ∀ (n : Nat) (temp : Int),
    (negList ym q temp n).length = n
  | 0, _ => rfl
  | n + 1, temp => by simp [negList, negList_length ym q n]

theorem negList_getD (ym q : Int) : ∀ (n : Nat) (temp : Int) (i : Nat), i < n →
    (negList ym q temp n).getD i 0 = temp * ym ^ (i + 1) % q * 2 % q := by
  intro n
  induction n with
  | zero => intro _ i hi; exact absurd hi (Nat.not_lt_zero i)
  | succ m ih =>
    intro temp i hi
    match i with
    | 0 => simp [negList, mulMod, pow_one]
    | j + 1 =>
      show (negList ym q (mulMod temp ym q) m).getD j 0 = _
      rw [ih (mulMod temp ym q) j (Nat.lt_of_succ_lt_succ hi)]
      have h1 : mulMod temp ym q * ym ^ (j + 1) % q = temp * ym ^ (j + 1 + 1) % q := by
        unfold mulMod
        rw [mulEmodLeft]
        congr 1
        ring
      rw [h1]

theorem kconstSum_congr (K1 K2 YP : List Int) (off : Nat) (q : Int) :
    ∀ n : Nat, (∀ i, i < n → K1.getD i 0 = K2.getD i 0) →
      kconstSum K1 YP off q n = kconstSum K2 YP off q n
  | 0, _ => rfl
  | n + 1, h => by
    simp only [kconstSum]
    rw [kconstSum_congr K1 K2 YP off q n (fun i hi => h i (Nat.lt_succ_of_lt hi)),
      h n (Nat.lt_succ_self n)]

/-- C3: the challenge-folding entry point setYPoly writes y, YPowers, y_vec_neg,
YDash, K and Kconst but never the aggregated weight matrices wAj, wBj, wCj
(the set_wABj / set_wCj calls are commented out in the source); hence after
construction, wire assignment, setConstraints and setYPoly every entry of the
three aggregated matrices still holds the construction-time default 0, even
though sumWiresDotWPoly is sensitive to all three of them. -/
theorem setYPoly_frame_wAj_wBj_wCj (p : ZParams) (t : CTemplate) (coin : Coin)
    (S y : Int) (c : Circuit) :
    ((setYPoly c y).wAj = c.wAj ∧ (setYPoly c y).wBj = c.wBj ∧ (setYPoly c y).wCj = c.wCj)
    ∧ (∀ i j : Nat,
        (setYPoly (setConstraints (setWireValues (initCircuit p t) coin) S) y).wAj i j = 0
        ∧ (setYPoly (setConstraints (setWireValues (initCircuit p t) coin) S) y).wBj i j = 0
        ∧ (setYPoly (setConstraints (setWireValues (initCircuit p t) coin) S) y).wCj i j = 0)
    ∧ sumWiresDotWPoly { toyC3 with wAj := fun _ _ => 1 } ≠ sumWiresDotWPoly toyC3
    ∧ sumWiresDotWPoly { toyC3 with wBj := fun _ _ => 1 } ≠ sumWiresDotWPoly toyC3
    ∧ sumWiresDotWPoly { toyC3 with wCj := fun _ _ => 1 } ≠ sumWiresDotWPoly toyC3 := by
  refine ⟨⟨rfl, rfl, rfl⟩, fun i j => ⟨rfl, rfl, rfl⟩, by decide, by decide, by decide⟩

/-- C1: the completeness claim fails on the code.  On the spec section 8 toy
instance (q = 23, g = 2, h = 3, L = 4, 3×3 grid) with the valid coin S = 5,
r = 9 (bits 1,0,0,1 — a correct L-bit decomposition) and nonzero challenge
y = 7, the full pipeline setWireValues; setConstraints; setYPoly(7); check()
raises ConstraintRowMismatch (error code 3) instead of succeeding. -/
theorem completeness_pipeline_fails :
    check toyC3 = CheckResult.constraintRowMismatch
    ∧ toyC3.y % toyParams.q ≠ 0
    ∧ (∀ i : Nat, i < toyParams.L → toyCoin.bits i = toyCoin.rand / 2 ^ i % 2)
    ∧ 0 ≤ toyCoin.rand ∧ toyCoin.rand < 2 ^ toyParams.L := by decide

/-- C2: the aggregate-identity implication fails on the code.  cEx2 is a
populated toy circuit (witness cEx folded with the nonzero challenge y = 2)
that satisfies the elementwise rank-1 identity, the commitment equation and
all 16 constraint-template rows, yet sumWiresDotWPoly differs from Kconst, so
check() reports AggregateIdentityMismatch. -/
theorem aggregate_identity_fails_on_satisfying_witness :
    (∀ i : Nat, i < toyParams.M → ∀ j : Nat, j < toyParams.N →
      mulMod (cEx2.A i j) (cEx2.B i j) toyParams.q = cEx2.C i j)
    ∧ cEx2.C (toyParams.M - 1) 0 =
        mulMod (powMod toyParams.g cEx2.serialNumber toyParams.q)
          (powMod toyParams.h cEx2.randomness toyParams.q) toyParams.q
    ∧ (∀ i : Nat, i < 4 * toyParams.L → cEx2.K.getD i 0 = sumWiresDotWs cEx2 i)
    ∧ cEx2.y % toyParams.q ≠ 0
    ∧ sumWiresDotWPoly cEx2 ≠ cEx2.Kconst
    ∧ check cEx2 = CheckResult.aggregateIdentityMismatch := by decide

/-- C8 counterexample: for the invertible challenge y = 2 on the toy circuit
(M = 3, q = 23), the first entry of y_vec_neg is 6 = 2·(y^(-M))^1 mod q and not
(y^(-M))^1 mod q = 3, refuting the claim as stated at index 0. -/
theorem y_vec_neg_claim_false :
    Int.gcd 2 toyParams.q = 1
    ∧ (setYPoly toyC2 2).y_vec_neg.length = toyParams.N + toyParams.pads
    ∧ (setYPoly toyC2 2).y_vec_neg.getD 0 0 ≠
        powMod 2 (-(toyParams.M : Int)) toyParams.q ^ (0 + 1) % toyParams.q := by decide

/-- C8 amended: after setYPoly(y) the vector y_vec_neg has length N + PADS and
its i-th entry is 2·(y^(-M))^(i+1) mod q — the successive powers of
y^(-M) := pow_mod(y, -M, q), each additionally multiplied by 2 (the
mul_mod(2, q) in the push_back of set_YPowers2, line 314). -/
theorem y_vec_neg_doubled_powers (c : Circuit) (y : Int) (i : Nat)
    (hi : i < c.params.N + c.params.pads) :
    (setYPoly c y).y_vec_neg.getD i 0 =
      powMod y (-(c.params.M : Int)) c.params.q ^ (i + 1) * 2 % c.params.q
    ∧ (setYPoly c y).y_vec_neg.length = c.params.N + c.params.pads := by
  constructor
  · show (negList (powMod y (-(c.params.M : Int)) c.params.q) c.params.q 1
      (c.params.N + c.params.pads)).getD i 0 = _
    rw [negList_getD _ _ _ _ i hi, one_mul, mulEmodLeft]
  · exact negList_length _ _ _ _

/-- Witness for the C8 amended theorem at the toy instance (i = 0, y = 2):
entry 0 of y_vec_neg is 6. -/
theorem y_vec_neg_doubled_powers_witness :
    (setYPoly toyC2 2).y_vec_neg.getD 0 0 =
      powMod 2 (-(toyParams.M : Int)) toyParams.q ^ (0 + 1) * 2 % toyParams.q
    ∧ (setYPoly toyC2 2).y_vec_neg.length = toyParams.N + toyParams.pads :=
  y_vec_neg_doubled_powers toyC2 2 0 (by decide)

/-- C10 counterexample: on the toy pipeline circuit with nonzero challenge
y = 7 and nonzero g^S mod q, a second invocation of setYPoly with the same y
grows K by one more element but computes the SAME Kconst (the extra term reads
one slot past the end of YPowers, modelled as the default 0), refuting the
claim that the second Kconst differs. -/
theorem setYPoly_kconst_claim_false :
    (7 : Int) % toyParams.q ≠ 0
    ∧ powMod toyParams.g toyC2.serialNumber toyParams.q ≠ 0
    ∧ (setYPoly (setYPoly toyC2 7) 7).K.length = (setYPoly toyC2 7).K.length + 1
    ∧ (setYPoly (setYPoly toyC2 7) 7).Kconst = (setYPoly toyC2 7).Kconst := by decide

/-- C10 amended: every setYPoly invocation appends g^S mod q to K, so n calls
leave K n elements longer than the 4L-element template constant vector; the
second call therefore folds 4L+2 terms, whose last term addresses YPowers index
4L+M+1+(4L+1) = 8L+M+2 while YPowers has exactly 8L+M+2 entries (indices up to
8L+M+1) — an out-of-range std::vector read in the C++ source.  Modelling that
read as the default 0, the extra term vanishes and the second invocation
produces the same Kconst as the first. -/
theorem setYPoly_growth_and_kconst (c : Circuit) (y : Int)
    (hK : c.K.length = 4 * c.params.L) :
    (setYPoly c y).K.length = c.K.length + 1
    ∧ (setYPoly (setYPoly c y) y).K.length = c.K.length + 2
    ∧ (setYPoly c y).YPowers.length = 8 * c.params.L + c.params.M + 2
    ∧ 4 * c.params.L + c.params.M + 1 + (c.K.length + 1) = (setYPoly c y).YPowers.length
    ∧ (setYPoly (setYPoly c y) y).Kconst = (setYPoly c y).Kconst := by
  have hlen1 : (setYPoly c y).K.length = c.K.length + 1 := by
    show (c.K ++ [powMod c.params.g c.serialNumber c.params.q]).length = _
    simp
  have hYP : (setYPoly c y).YPowers.length = 8 * c.params.L + c.params.M + 2 := by
    show ((1 : Int) :: powListFrom y c.params.q 1 (8 * c.params.L + c.params.M + 1)).length = _
    simp [powListFrom_length]
  refine ⟨hlen1, ?_, hYP, by omega, ?_⟩
  · show ((setYPoly c y).K ++ [_]).length = c.K.length + 2
    simp [hlen1]
  · -- both calls push the same scalar gS and rebuild the same YPowers
    set p := c.params with hp
    set gS := powMod p.g c.serialNumber p.q with hgS
    set YP := (1 : Int) :: powListFrom y p.q 1 (8 * p.L + p.M + 1) with hYPdef
    have hYPlen : YP.length = 8 * p.L + p.M + 2 := by
      simp [hYPdef, powListFrom_length]
    have hser : (setYPoly c y).serialNumber = c.serialNumber := rfl
    have hpar : (setYPoly c y).params = c.params := rfl
    show kconstSum ((c.K ++ [gS]) ++ [gS]) YP (4 * p.L + p.M + 1) p.q
        ((c.K ++ [gS]) ++ [gS]).length
      = kconstSum (c.K ++ [gS]) YP (4 * p.L + p.M + 1) p.q (c.K ++ [gS]).length
    have hl1 : (c.K ++ [gS]).length = 4 * p.L + 1 := by simp [hK]
    have hl2 : ((c.K ++ [gS]) ++ [gS]).length = 4 * p.L + 1 + 1 := by simp [hK]
    rw [hl1, hl2]
    -- unfold the last step of the longer sum
    have hstep : kconstSum ((c.K ++ [gS]) ++ [gS]) YP (4 * p.L + p.M + 1) p.q (4 * p.L + 1 + 1)
        = (kconstSum ((c.K ++ [gS]) ++ [gS]) YP (4 * p.L + p.M + 1) p.q (4 * p.L + 1)
            + mulMod (((c.K ++ [gS]) ++ [gS]).getD (4 * p.L + 1) 0)
                (YP.getD (4 * p.L + p.M + 1 + (4 * p.L + 1)) 0) p.q) % p.q := rfl
    have hoverflow : YP.getD (4 * p.L + p.M + 1 + (4 * p.L + 1)) 0 = 0 := by
      have : YP.length ≤ 4 * p.L + p.M + 1 + (4 * p.L + 1) := by omega
      simp [List.getD_eq_getElem?_getD, List.getElem?_eq_none this]
    have hfirst : kconstSum ((c.K ++ [gS]) ++ [gS]) YP (4 * p.L + p.M + 1) p.q (4 * p.L + 1)
        = kconstSum (c.K ++ [gS]) YP (4 * p.L + p.M + 1) p.q (4 * p.L + 1) := by
      refine kconstSum_congr _ _ _ _ _ _ (fun i hi => ?_)
      have hilt : i < (c.K ++ [gS]).length := by omega
      rw [List.getD_eq_getElem?_getD, List.getD_eq_getElem?_getD,
        List.getElem?_append_left hilt]
    rw [hstep, hoverflow, hfirst]
    have hmul : mulMod (((c.K ++ [gS]) ++ [gS]).getD (4 * p.L + 1) 0) 0 p.q = 0 := by
      simp [mulMod]
    rw [hmul, add_zero]
    -- the shorter sum already ends in a reduction mod q
    show kconstSum (c.K ++ [gS]) YP (4 * p.L + p.M + 1) p.q (4 * p.L + 1) % p.q = _
    have : kconstSum (c.K ++ [gS]) YP (4 * p.L + p.M + 1) p.q (4 * p.L + 1)
        = (kconstSum (c.K ++ [gS]) YP (4 * p.L + p.M + 1) p.q (4 * p.L)
            + mulMod ((c.K ++ [gS]).getD (4 * p.L) 0)
                (YP.getD (4 * p.L + p.M + 1 + 4 * p.L) 0) p.q) % p.q := rfl
    rw [this, emodIdem]

/-- Witness for the C10 amended theorem at the toy circuit (K has 4L = 16
template entries). -/
theorem setYPoly_growth_and_kconst_witness :
    (setYPoly toyC2 7).K.length = toyC2.K.length + 1
    ∧ (setYPoly (setYPoly toyC2 7) 7).K.length = toyC2.K.length + 2
    ∧ (setYPoly toyC2 7).YPowers.length = 8 * toyC2.params.L + toyC2.params.M + 2
    ∧ 4 * toyC2.params.L + toyC2.params.M + 1 + (toyC2.K.length + 1)
        = (setYPoly toyC2 7).YPowers.length
    ∧ (setYPoly (setYPoly toyC2 7) 7).Kconst = (setYPoly toyC2 7).Kconst :=
  setYPoly_growth_and_kconst toyC2 7 (by decide)

theorem sparseCol_congr (w w2 : Nat → CBN_matrix) (rowIdx k : Nat) :
    ∀ n : Nat, (∀ i, i < n → w i rowIdx k = w2 i rowIdx k) →
      sparseCol w rowIdx k n = sparseCol w2 rowIdx k n
  | 0, _ => rfl
  | n + 1, h => by
    simp only [sparseCol]
    rw [sparseCol_congr w w2 rowIdx k n (fun i hi => h i (Nat.lt_succ_of_lt hi)),
      h n (Nat.lt_succ_self n)]

/-- C9: set_s_poly returns second-row sparse lists that are element-for-element
copies of the first-row lists (the source pushes temp1 into both s_*1 and s_*2,
discarding temp2), and its entire output is unchanged under arbitrary
modification of the matrix-row-1 entries w*[i][1][k] of the weight templates. -/
theorem set_s_poly_second_copies_first (p : ZParams)
    (tA tB tC uA uB uC : Nat → CBN_matrix) (rows : Nat)
    (hA : ∀ i, i < rows → ∀ k, k < p.N → tA i 0 k = uA i 0 k)
    (hB : ∀ i, i < rows → ∀ k, k < p.N → tB i 0 k = uB i 0 k)
    (hC : ∀ i, i < rows → ∀ k, k < p.N → tC i 0 k = uC i 0 k) :
    ((set_s_poly p tA tB tC rows).s_a2 = (set_s_poly p tA tB tC rows).s_a1
      ∧ (set_s_poly p tA tB tC rows).s_b2 = (set_s_poly p tA tB tC rows).s_b1
      ∧ (set_s_poly p tA tB tC rows).s_c2 = (set_s_poly p tA tB tC rows).s_c1)
    ∧ set_s_poly p tA tB tC rows = set_s_poly p uA uB uC rows := by
  have col : ∀ (t u : Nat → CBN_matrix),
      (∀ i, i < rows → ∀ k, k < p.N → t i 0 k = u i 0 k) →
      ∀ k ∈ List.range p.N, sparseCol t 0 k rows = sparseCol u 0 k rows := by
    intro t u h k hk
    exact sparseCol_congr t u 0 k rows (fun i hi => h i hi k (List.mem_range.mp hk))
  refine ⟨⟨rfl, rfl, rfl⟩, ?_⟩
  have eA : (List.range p.N).map (fun k => sparseCol tA 0 k rows)
      = (List.range p.N).map (fun k => sparseCol uA 0 k rows) :=
    List.map_congr_left (col tA uA hA)
  have eB : (List.range p.N).map (fun k => sparseCol tB 0 k rows)
      = (List.range p.N).map (fun k => sparseCol uB 0 k rows) :=
    List.map_congr_left (col tB uB hB)
  have eC : (List.range p.N).map (fun k => sparseCol tC 0 k rows)
      = (List.range p.N).map (fun k => sparseCol uC 0 k rows) :=
    List.map_congr_left (col tC uC hC)
  simp only [set_s_poly]
  rw [eA, eB, eC]

/-- Witness for C9: two concrete 2-row templates over the toy parameters that
agree on matrix-row 0 but differ everywhere on matrix-row 1 produce identical
set_s_poly output, and the second-row lists equal the first-row lists. -/
theorem set_s_poly_second_copies_first_witness :
    ((set_s_poly toyParams (fun _ _ k => k) (fun _ _ _ => 1) (fun _ _ _ => 0) 2).s_a2
        = (set_s_poly toyParams (fun _ _ k => k) (fun _ _ _ => 1) (fun _ _ _ => 0) 2).s_a1
      ∧ (set_s_poly toyParams (fun _ _ k => k) (fun _ _ _ => 1) (fun _ _ _ => 0) 2).s_b2
        = (set_s_poly toyParams (fun _ _ k => k) (fun _ _ _ => 1) (fun _ _ _ => 0) 2).s_b1
      ∧ (set_s_poly toyParams (fun _ _ k => k) (fun _ _ _ => 1) (fun _ _ _ => 0) 2).s_c2
        = (set_s_poly toyParams (fun _ _ k => k) (fun _ _ _ => 1) (fun _ _ _ => 0) 2).s_c1)
    ∧ set_s_poly toyParams (fun _ _ k => k) (fun _ _ _ => 1) (fun _ _ _ => 0) 2
      = set_s_poly toyParams (fun _ r k => if r = 1 then 7 else k)
          (fun _ r _ => if r = 1 then 8 else 1) (fun _ r _ => if r = 1 then 9 else 0) 2 :=
  set_s_poly_second_copies_first toyParams _ _ _ _ _ _ 2
    (fun i _ k _ => by simp) (fun i _ k _ => by simp) (fun i _ k _ => by simp)

/-! Rank-1 invariant machinery (claim C4). -/

theorem rank1_zero (q : Int) : Rank1 q zeroMat zeroMat zeroMat := by
  intro i j
  simp [mulMod, zeroMat]

theorem matUpdate_same (m : CBN_matrix) (r c : Nat) (v : Int) :
    matUpdate m r c v r c = v := by simp [matUpdate]

theorem matUpdate_collapse (m : CBN_matrix) (r c : Nat) (v w : Int) :
    matUpdate (matUpdate m r c v) r c w = matUpdate m r c w := by
  funext i j
  by_cases h : i = r ∧ j = c <;> simp [matUpdate, h]

theorem rank1_matUpdate {q : Int} {A B C : CBN_matrix} (h : Rank1 q A B C)
    (r c : Nat) {a b v : Int} (hv : mulMod a b q = v) :
    Rank1 q (matUpdate A r c a) (matUpdate B r c b) (matUpdate C r c v) := by
  intro i j
  by_cases hij : i = r ∧ j = c
  · simp [matUpdate, hij, hv]
  · simp [matUpdate, hij, h i j]

theorem rank1_loop1 (p : ZParams) (bits : Nat → Int) (A B C : CBN_matrix) :
    ∀ steps : Nat, (∀ t, t < steps → bits t = 0 ∨ bits t = 1) → Rank1 p.q A B C →
      Rank1 p.q (loop1 p bits A B C steps).1 (loop1 p bits A B C steps).2.1
        (loop1 p bits A B C steps).2.2
  | 0, _, h => h
  | t + 1, hb, h => by
    have ih := rank1_loop1 p bits A B C t (fun s hs => hb s (Nat.lt_succ_of_lt hs)) h
    simp only [loop1]
    refine rank1_matUpdate ih _ _ ?_
    rcases hb t (Nat.lt_succ_self t) with h0 | h1
    · rw [h0]; simp [mulMod, Int.mul_emod]
    · rw [h1]; simp [mulMod, Int.mul_emod]

theorem mulMod_rotate (a b g q : Int) : mulMod (mulMod a g q) b q = mulMod (mulMod a b q) g q := by
  unfold mulMod
  rw [mulEmodLeft, mulEmodLeft]
  congr 1
  ring

theorem rank1_loop2 (p : ZParams) (serial : Int) (bits : Nat → Int) (A B C : CBN_matrix) :
    ∀ steps : Nat, Rank1 p.q A B C →
      Rank1 p.q (loop2 p serial bits A B C steps).A (loop2 p serial bits A B C steps).B
        (loop2 p serial bits A B C steps).C
  | 0, h => h
  | t + 1, h => by
    have ih := rank1_loop2 p serial bits A B C t h
    simp only [loop2]
    split
    · -- final accumulation cell: A and C both multiplied by g^S mod q
      rw [matUpdate_collapse, matUpdate_collapse]
      exact rank1_matUpdate ih _ _ (mulMod_rotate _ _ _ _)
    · exact rank1_matUpdate ih _ _ rfl

/-- C4: whenever the coin's bit decomposition is correct (bit i = (r >> i) & 1),
immediately after setWireValues every cell of the witness matrices satisfies
A[i][j]·B[i][j] ≡ C[i][j] (mod q) — including the final accumulation cell,
where both A and C carry the extra factor g^S mod q, and the unused cells
beyond wire 2L-2, which stay at their zero defaults — and the identity is
preserved by setConstraints and setYPoly, which leave A, B, C untouched
(check only reads the state). -/
theorem rank1_identity_after_setWireValues (p : ZParams) (t : CTemplate) (coin : Coin)
    (S y : Int)
    (hbits : ∀ i : Nat, i < p.L → coin.bits i = coin.rand / 2 ^ i % 2) :
    (∀ i j : Nat, i < p.M → j < p.N →
      mulMod ((setWireValues (initCircuit p t) coin).A i j)
        ((setWireValues (initCircuit p t) coin).B i j) p.q
        = (setWireValues (initCircuit p t) coin).C i j)
    ∧ ((setConstraints (setWireValues (initCircuit p t) coin) S).A
          = (setWireValues (initCircuit p t) coin).A
        ∧ (setConstraints (setWireValues (initCircuit p t) coin) S).B
          = (setWireValues (initCircuit p t) coin).B
        ∧ (setConstraints (setWireValues (initCircuit p t) coin) S).C
          = (setWireValues (initCircuit p t) coin).C)
    ∧ ((setYPoly (setConstraints (setWireValues (initCircuit p t) coin) S) y).A
          = (setWireValues (initCircuit p t) coin).A
        ∧ (setYPoly (setConstraints (setWireValues (initCircuit p t) coin) S) y).B
          = (setWireValues (initCircuit p t) coin).B
        ∧ (setYPoly (setConstraints (setWireValues (initCircuit p t) coin) S) y).C
          = (setWireValues (initCircuit p t) coin).C) := by
  refine ⟨fun i j _ _ => ?_, ⟨rfl, rfl, rfl⟩, ⟨rfl, rfl, rfl⟩⟩
  have hb : ∀ s, s < p.L → coin.bits s = 0 ∨ coin.bits s = 1 := by
    intro s hs
    rw [hbits s hs]
    exact Int.emod_two_eq (coin.rand / 2 ^ s)
  have h1 := rank1_loop1 p coin.bits zeroMat zeroMat zeroMat p.L hb (rank1_zero p.q)
  have h2 := rank1_loop2 p coin.serial coin.bits _ _ _ (p.L - 1) h1
  exact h2 i j

/-- Witness for C4 at the toy instance: the spec section 8 coin S = 5, r = 9
has a correct bit decomposition, so the rank-1 identity and the frame
equalities hold on the toy pipeline (S = 5, y = 7). -/
theorem rank1_identity_after_setWireValues_witness :
    (∀ i j : Nat, i < toyParams.M → j < toyParams.N →
      mulMod ((setWireValues (initCircuit toyParams toyTemplate) toyCoin).A i j)
        ((setWireValues (initCircuit toyParams toyTemplate) toyCoin).B i j) toyParams.q
        = (setWireValues (initCircuit toyParams toyTemplate) toyCoin).C i j)
    ∧ ((setConstraints (setWireValues (initCircuit toyParams toyTemplate) toyCoin) 5).A
          = (setWireValues (initCircuit toyParams toyTemplate) toyCoin).A
        ∧ (setConstraints (setWireValues (initCircuit toyParams toyTemplate) toyCoin) 5).B
          = (setWireValues (initCircuit toyParams toyTemplate) toyCoin).B
        ∧ (setConstraints (setWireValues (initCircuit toyParams toyTemplate) toyCoin) 5).C
          = (setWireValues (initCircuit toyParams toyTemplate) toyCoin).C)
    ∧ ((setYPoly (setConstraints (setWireValues (initCircuit toyParams toyTemplate) toyCoin) 5) 7).A
          = (setWireValues (initCircuit toyParams toyTemplate) toyCoin).A
        ∧ (setYPoly (setConstraints (setWireValues (initCircuit toyParams toyTemplate) toyCoin) 5) 7).B
          = (setWireValues (initCircuit toyParams toyTemplate) toyCoin).B
        ∧ (setYPoly (setConstraints (setWireValues (initCircuit toyParams toyTemplate) toyCoin) 5) 7).C
          = (setWireValues (initCircuit toyParams toyTemplate) toyCoin).C) :=
  rank1_identity_after_setWireValues toyParams toyTemplate toyCoin 5 7 (by decide)

/-! Characterisation of the accumulation loop (claim C5). -/

theorem loop2_x_prod (p : ZParams) (serial : Int) (bits : Nat → Int)
    (A B C : CBN_matrix) : ∀ t : Nat,
    (loop2 p serial bits A B C t).x = xDef p bits t
    ∧ (loop2 p serial bits A B C t).prod = prodDef p bits t
  | 0 => ⟨rfl, rfl⟩
  | t + 1 => by
    obtain ⟨hx, hp⟩ := loop2_x_prod p serial bits A B C t
    simp only [loop2]
    split
    · exact ⟨rfl, by simp only [prodDef, hx, hp]⟩
    · exact ⟨rfl, by simp only [prodDef, hx, hp]⟩

theorem loop2_finalC (p : ZParams) (serial : Int) (bits : Nat → Int)
    (A B C : CBN_matrix) (l : Nat) (hl : p.L = l + 2) :
    (loop2 p serial bits A B C (l + 1)).C ((2 * p.L - 2) / p.N) ((2 * p.L - 2) % p.N)
      = mulMod (mulMod (prodDef p bits (l + 1)) (xDef p bits (l + 1) % p.q) p.q)
          (powMod p.g serial p.q) p.q := by
  obtain ⟨hx, hp⟩ := loop2_x_prod p serial bits A B C l
  have hi : p.L + l = 2 * p.L - 2 := by omega
  simp only [loop2]
  rw [if_pos hi, ← hi]
  show matUpdate _ ((p.L + l) / p.N) ((p.L + l) % p.N) _ ((p.L + l) / p.N) ((p.L + l) % p.N) = _
  rw [matUpdate_same, hx, hp]
  simp only [prodDef, xDef]

theorem bitSum_eq_mod (R : Nat) : ∀ t : Nat, bitSum R t = R % 2 ^ t
  | 0 => by simp [bitSum, Nat.mod_one]
  | t + 1 => by
    have h1 : R % (2 ^ t * 2) / 2 ^ t = R / 2 ^ t % 2 :=
      Nat.mod_mul_right_div_self R (2 ^ t) 2
    have h2 : R % (2 ^ t * 2) % 2 ^ t = R % 2 ^ t :=
      Nat.mod_mod_of_dvd R ⟨2, rfl⟩
    have h3 := Nat.div_add_mod (R % (2 ^ t * 2)) (2 ^ t)
    rw [h1, h2] at h3
    have e : bitSum R t = R % 2 ^ t := bitSum_eq_mod R t
    simp only [bitSum, e, pow_succ]
    rw [← h3]
    ring

theorem mulMod_comm (a b q : Int) : mulMod a b q = mulMod b a q := by
  unfold mulMod
  rw [mul_comm]

theorem two_pow_toNat (u : Nat) : ((2 : Int) ^ u).toNat = 2 ^ u := by
  have : (2 : Int) ^ u = ((2 ^ u : Nat) : Int) := by push_cast; ring
  rw [this, Int.toNat_natCast]

/-- Multiplying a power of h by the step factor xDef (t ≥ 1) adds the bit's
contribution to the exponent, mod q. -/
theorem mul_xDef (p : ZParams) (bits : Nat → Int) (R : Nat) (u : Nat)
    (hb : bits (u + 1) = ((R / 2 ^ (u + 1) % 2 : Nat) : Int)) (s : Nat) :
    p.h ^ s * xDef p bits (u + 1) % p.q
      = p.h ^ (s + R / 2 ^ (u + 1) % 2 * 2 ^ (u + 1)) % p.q := by
  rcases Nat.mod_two_eq_zero_or_one (R / 2 ^ (u + 1)) with h0 | h1
  · rw [h0] at hb ⊢
    simp only [xDef, hb]
    norm_num
  · rw [h1] at hb ⊢
    simp only [xDef, hb]
    have hx : ((R / 2 ^ (u + 1) % 2 : Nat) : Int) * (powMod p.h ((2 : Int) ^ (u + 1)) p.q - 1) + 1
        = powMod p.h ((2 : Int) ^ (u + 1)) p.q := by
      rw [h1]
      push_cast
      ring
    rw [show ((1 : Nat) : Int) * (powMod p.h ((2 : Int) ^ (u + 1)) p.q - 1) + 1
        = powMod p.h ((2 : Int) ^ (u + 1)) p.q by push_cast; ring]
    unfold powMod
    rw [if_pos (by positivity : (0 : Int) ≤ (2 : Int) ^ (u + 1))]
    rw [two_pow_toNat, mulEmodRight, ← pow_add, one_mul]

/-- The running product equals h raised to the partial bit sum, mod q. -/
theorem prodDef_emod (p : ZParams) (bits : Nat → Int) (R : Nat) :
    ∀ t : Nat, 1 ≤ t → (∀ j, j < t → bits j = ((R / 2 ^ j % 2 : Nat) : Int)) →
      prodDef p bits t = p.h ^ bitSum R t % p.q := by
  intro t ht
  induction t, ht using Nat.le_induction with
  | base =>
    intro hb
    have hb0 := hb 0 Nat.one_pos
    have e0 : ((R / 2 ^ 0 % 2 : Nat) : Int) = ((R % 2 : Nat) : Int) := by norm_num
    rw [e0] at hb0
    have e1 : bitSum R 1 = R % 2 := by simp [bitSum]
    show mulMod 1 (xDef p bits 0) p.q = p.h ^ bitSum R 1 % p.q
    rw [e1]
    simp only [mulMod, one_mul, xDef]
    rcases Nat.mod_two_eq_zero_or_one R with h0 | h1
    · rw [hb0, h0]
      norm_num
    · rw [hb0, h1]
      push_cast
      ring_nf
  | succ t ht ih =>
    intro hb
    obtain ⟨u, rfl⟩ : ∃ u, t = u + 1 := ⟨t - 1, by omega⟩
    have hprev := ih (fun j hj => hb j (Nat.lt_succ_of_lt hj))
    show mulMod (prodDef p bits (u + 1)) (xDef p bits (u + 1)) p.q = _
    rw [hprev]
    unfold mulMod
    rw [mulEmodLeft, mul_xDef p bits R u (hb (u + 1) (Nat.lt_succ_self _))]
    rfl

/-- C5: for every coin whose randomness fits in L bits and whose bit
decomposition is correct, after setWireValues the final witness cell — the cell
C[M-1][0] read by the checker's commitment test, which is the flattened wire
2L-2 since (M-1)·N = 2L-2 — equals the public commitment value
(g^S mod q)·(h^r mod q) mod q. -/
theorem final_cell_commitment (p : ZParams) (t : CTemplate) (coin : Coin)
    (hL : 2 ≤ p.L) (hN : 0 < p.N) (hMN : (p.M - 1) * p.N = 2 * p.L - 2)
    (hr0 : 0 ≤ coin.rand) (hrL : coin.rand < 2 ^ p.L)
    (hbits : ∀ i : Nat, i < p.L → coin.bits i = coin.rand / 2 ^ i % 2) :
    (setWireValues (initCircuit p t) coin).C (p.M - 1) 0
      = mulMod (powMod p.g coin.serial p.q) (powMod p.h coin.rand p.q) p.q := by
  obtain ⟨l, hl⟩ : ∃ l, p.L = l + 2 := ⟨p.L - 2, by omega⟩
  have hbN : ∀ j, j < p.L → coin.bits j = ((coin.rand.toNat / 2 ^ j % 2 : Nat) : Int) := by
    intro j hj
    rw [hbits j hj, show coin.rand = ((coin.rand.toNat : Nat) : Int) from
      (Int.toNat_of_nonneg hr0).symm]
    push_cast
    norm_num
  have hdiv : (2 * p.L - 2) / p.N = p.M - 1 := by
    rw [← hMN]
    exact Nat.mul_div_cancel _ hN
  have hmod : (2 * p.L - 2) % p.N = 0 := by
    rw [← hMN]
    exact Nat.mul_mod_left _ _
  have hL1 : p.L - 1 = l + 1 := by omega
  have hRlt : coin.rand.toNat < 2 ^ p.L := by
    have h2 : ((2 ^ p.L : Nat) : Int) = 2 ^ p.L := by push_cast; ring
    rw [← h2] at hrL
    exact (Int.toNat_lt hr0).mpr hrL
  have key : mulMod (prodDef p coin.bits (l + 1)) (xDef p coin.bits (l + 1) % p.q) p.q
      = powMod p.h coin.rand p.q := by
    have hp1 : prodDef p coin.bits (l + 1) = p.h ^ bitSum coin.rand.toNat (l + 1) % p.q :=
      prodDef_emod p coin.bits coin.rand.toNat (l + 1) (by omega)
        (fun j hj => hbN j (by omega))
    unfold mulMod
    rw [hp1, mulEmodLeft, mulEmodRight,
      mul_xDef p coin.bits coin.rand.toNat l (hbN (l + 1) (by omega))]
    have e2 : bitSum coin.rand.toNat (l + 1)
        + coin.rand.toNat / 2 ^ (l + 1) % 2 * 2 ^ (l + 1)
        = bitSum coin.rand.toNat (l + 2) := rfl
    rw [e2]
    have e3 : bitSum coin.rand.toNat (l + 2) = coin.rand.toNat := by
      rw [bitSum_eq_mod, ← hl]
      exact Nat.mod_eq_of_lt hRlt
    rw [e3]
    unfold powMod
    rw [if_pos hr0]
  have hcell := loop2_finalC p coin.serial coin.bits
    (loop1 p coin.bits zeroMat zeroMat zeroMat p.L).1
    (loop1 p coin.bits zeroMat zeroMat zeroMat p.L).2.1
    (loop1 p coin.bits zeroMat zeroMat zeroMat p.L).2.2 l hl
  have haddr : (loop2 p coin.serial coin.bits
        (loop1 p coin.bits zeroMat zeroMat zeroMat p.L).1
        (loop1 p coin.bits zeroMat zeroMat zeroMat p.L).2.1
        (loop1 p coin.bits zeroMat zeroMat zeroMat p.L).2.2 (l + 1)).C
          ((2 * p.L - 2) / p.N) ((2 * p.L - 2) % p.N)
      = (loop2 p coin.serial coin.bits
          (loop1 p coin.bits zeroMat zeroMat zeroMat p.L).1
          (loop1 p coin.bits zeroMat zeroMat zeroMat p.L).2.1
          (loop1 p coin.bits zeroMat zeroMat zeroMat p.L).2.2 (l + 1)).C
            (p.M - 1) 0 := by
    rw [hdiv, hmod]
  calc (setWireValues (initCircuit p t) coin).C (p.M - 1) 0
      = (loop2 p coin.serial coin.bits
          (loop1 p coin.bits zeroMat zeroMat zeroMat p.L).1
          (loop1 p coin.bits zeroMat zeroMat zeroMat p.L).2.1
          (loop1 p coin.bits zeroMat zeroMat zeroMat p.L).2.2 (p.L - 1)).C
            (p.M - 1) 0 := rfl
    _ = (loop2 p coin.serial coin.bits
          (loop1 p coin.bits zeroMat zeroMat zeroMat p.L).1
          (loop1 p coin.bits zeroMat zeroMat zeroMat p.L).2.1
          (loop1 p coin.bits zeroMat zeroMat zeroMat p.L).2.2 (l + 1)).C
            (p.M - 1) 0 := by rw [hL1]
    _ = (loop2 p coin.serial coin.bits
          (loop1 p coin.bits zeroMat zeroMat zeroMat p.L).1
          (loop1 p coin.bits zeroMat zeroMat zeroMat p.L).2.1
          (loop1 p coin.bits zeroMat zeroMat zeroMat p.L).2.2 (l + 1)).C
            ((2 * p.L - 2) / p.N) ((2 * p.L - 2) % p.N) := haddr.symm
    _ = mulMod (mulMod (prodDef p coin.bits (l + 1)) (xDef p coin.bits (l + 1) % p.q) p.q)
          (powMod p.g coin.serial p.q) p.q := hcell
    _ = mulMod (powMod p.h coin.rand p.q) (powMod p.g coin.serial p.q) p.q := by rw [key]
    _ = mulMod (powMod p.g coin.serial p.q) (powMod p.h coin.rand p.q) p.q := mulMod_comm _ _ _

/-- Witness for C5 at the toy instance: the final cell of the toy pipeline
(wire 6 at position (2,0)) equals 2^5·3^9 mod 23 = 1. -/
theorem final_cell_commitment_witness :
    (setWireValues (initCircuit toyParams toyTemplate) toyCoin).C (toyParams.M - 1) 0
      = mulMod (powMod toyParams.g toyCoin.serial toyParams.q)
          (powMod toyParams.h toyCoin.rand toyParams.q) toyParams.q :=
  final_cell_commitment toyParams toyTemplate toyCoin (by decide) (by decide) (by decide)
    (by decide) (by decide) (by decide)

/-! Row-semantics machinery for the constraint template (claims C6, C7). -/

theorem tK_getD (p : ZParams) (i : Nat) (hi : i < 4 * p.L) :
    (tK p).getD i 0 =
      (if i < p.L then 1
       else if i < 2 * p.L then 0
       else if i < 3 * p.L - 1 then (-1) % p.q
       else if i = 3 * p.L - 1 then p.h
       else 0) := by
  unfold tK
  rw [List.getD_eq_getElem?_getD, List.getElem?_map, List.getElem?_range hi]
  rfl

theorem swdwAux_eq (c : Circuit) (i : Nat) : ∀ m : Nat,
    swdwAux c i m = (sumRange (fun j =>
      dotProduct (c.A j) (c.wA i j) c.params.N c.params.q
      + dotProduct (c.B j) (c.wB i j) c.params.N c.params.q
      + dotProduct (c.C j) (c.wC i j) c.params.N c.params.q) m) % c.params.q
  | 0 => by simp [swdwAux, sumRange]
  | m + 1 => by
    simp only [swdwAux, sumRange, swdwAux_eq c i m, Int.emod_add_emod, Int.add_emod_emod]
    congr 1
    ring


theorem dot_ite_row (u v : CBN_vector) (P : Prop) [Decidable P] (n : Nat) (q : Int) :
    dotProduct u (fun c => if P then v c else 0) n q
      = if P then dotProduct u v n q else 0 := by
  by_cases h : P
  · simp only [h, if_true]
  · simp only [h, if_false]
    exact dot_zero_right u n q

theorem withWitness_params (p : ZParams) (t : CTemplate) (A B C : CBN_matrix) :
    (withWitness p t A B C).params = p := rfl

theorem withWitness_A (p : ZParams) (t : CTemplate) (A B C : CBN_matrix) :
    (withWitness p t A B C).A = A := rfl

theorem withWitness_B (p : ZParams) (t : CTemplate) (A B C : CBN_matrix) :
    (withWitness p t A B C).B = B := rfl

theorem withWitness_C (p : ZParams) (t : CTemplate) (A B C : CBN_matrix) :
    (withWitness p t A B C).C = C := rfl

theorem withWitness_wA (p : ZParams) (t : CTemplate) (A B C : CBN_matrix) :
    (withWitness p t A B C).wA = t.wA := rfl

theorem withWitness_wB (p : ZParams) (t : CTemplate) (A B C : CBN_matrix) :
    (withWitness p t A B C).wB = t.wB := rfl

theorem withWitness_wC (p : ZParams) (t : CTemplate) (A B C : CBN_matrix) :
    (withWitness p t A B C).wC = t.wC := rfl

theorem setPre_wA (p : ZParams) : (setPreConstraints p).wA = twA p := rfl

theorem setPre_wB (p : ZParams) : (setPreConstraints p).wB = twB p := rfl

theorem setPre_wC (p : ZParams) : (setPreConstraints p).wC = twC p := rfl

/-- C6 amended: each of the first L constraint rows asserts A - B = 1 at the
SHIFTED cell (i div N, (i+1) mod N) — the position derived from k = i+1
(flattened wire i+1, wrapping to an earlier wire when (i+1) mod N = 0) rather
than the slot of bit r_i — with the wA weight a unit vector there, the wB
weight -1 mod q at the same cell, all other weights zero and row constant
K[i] = 1: the row's weighted dot product over any witness A, B, C collapses to
(A - B) mod q at that cell. -/
theorem boolean_difference_rows_shifted (p : ZParams) (A B C : CBN_matrix)
    (hN : 0 < p.N) (hLMN : p.L ≤ p.M * p.N) (i : Nat) (hi : i < p.L) :
    sumWiresDotWs (withWitness p (setPreConstraints p) A B C) i
      = (A (i / p.N) ((i + 1) % p.N) - B (i / p.N) ((i + 1) % p.N)) % p.q
    ∧ (setPreConstraints p).K.getD i 0 = 1 := by
  have hKpart : (setPreConstraints p).K.getD i 0 = 1 := by
    show (tK p).getD i 0 = 1
    rw [tK_getD p i (by omega), if_pos hi]
  refine ⟨?_, hKpart⟩
  have hpos : (i + 1) % p.N < p.N := Nat.mod_lt _ hN
  have hj0 : i / p.N < p.M := by
    have h1 : i < p.M * p.N := lt_of_lt_of_le hi hLMN
    rw [Nat.mul_comm] at h1
    exact Nat.div_lt_of_lt_mul h1
  have hwA : ∀ j : Nat, twA p i j
      = fun c => if j = i / p.N then unit_vector ((i + 1) % p.N) c else 0 := by
    intro j
    unfold twA
    rw [if_pos hi]
  have hwB : ∀ j : Nat, twB p i j
      = fun c => if j = i / p.N then
          vectorTimesConstant (unit_vector ((i + 1) % p.N)) (-1) p.q c else 0 := by
    intro j
    unfold twB
    rw [if_pos hi]
  have hwC : ∀ j : Nat, twC p i j = fun _ => (0 : Int) := by
    intro j
    unfold twC
    rw [if_pos hi]
    rfl
  unfold sumWiresDotWs
  rw [swdwAux_eq]
  simp only [withWitness_params, withWitness_A, withWitness_B, withWitness_C,
    withWitness_wA, withWitness_wB, withWitness_wC, setPre_wA, setPre_wB, setPre_wC]
  have hsum : sumRange (fun j =>
      dotProduct (A j) (twA p i j) p.N p.q
      + dotProduct (B j) (twB p i j) p.N p.q
      + dotProduct (C j) (twC p i j) p.N p.q) p.M
      = A (i / p.N) ((i + 1) % p.N) % p.q
        + B (i / p.N) ((i + 1) % p.N) * ((-1) % p.q) % p.q := by
    rw [sumRange_congr (g := fun j => if j = i / p.N then
        A (i / p.N) ((i + 1) % p.N) % p.q
        + B (i / p.N) ((i + 1) % p.N) * ((-1) % p.q) % p.q else 0)]
    · exact (sumRange_single hj0 (fun j _ hne => if_neg hne)).trans (if_pos rfl)
    · intro j _
      rw [hwA j, hwB j, hwC j, dot_ite_row, dot_ite_row, dot_zero_right, add_zero]
      by_cases hj : j = i / p.N
      · subst hj
        rw [if_pos rfl, if_pos rfl, if_pos rfl,
          dot_unit _ _ _ _ hpos, dot_vtc_unit _ _ _ _ _ hpos]
      · rw [if_neg hj, if_neg hj, if_neg hj, add_zero]
  rw [hsum, mulEmodRight, Int.emod_add_emod, Int.add_emod_emod]
  congr 1
  ring

/-- Witness for the C6 amended theorem: toy parameters, zero witness matrices,
row i = 0 (the shifted cell is (0, 1)). -/
theorem boolean_difference_rows_shifted_witness :
    sumWiresDotWs (withWitness toyParams (setPreConstraints toyParams) zeroMat zeroMat zeroMat) 0
      = (zeroMat (0 / toyParams.N) ((0 + 1) % toyParams.N)
          - zeroMat (0 / toyParams.N) ((0 + 1) % toyParams.N)) % toyParams.q
    ∧ (setPreConstraints toyParams).K.getD 0 0 = 1 :=
  boolean_difference_rows_shifted toyParams zeroMat zeroMat zeroMat
    (by decide) (by decide) 0 (by decide)

/-- C6 counterexample: at the toy parameters the claim as stated — wA[i] a unit
vector at the bit slot (i div N, i mod N), wB[i] equal to -1 mod q there, all
other weights zero, K[i] = 1, for every i < L — is false: row 0 has its unit
weight at column 1, not at the bit-0 slot (0,0). -/
theorem boolean_difference_rows_claim_false :
    ¬ (∀ i : Nat, i < toyParams.L →
        (∀ r : Nat, r < toyParams.M → ∀ c : Nat, c < toyParams.N →
          (setPreConstraints toyParams).wA i r c
            = (if r = i / toyParams.N ∧ c = i % toyParams.N then 1 else 0))
        ∧ (∀ r : Nat, r < toyParams.M → ∀ c : Nat, c < toyParams.N →
          (setPreConstraints toyParams).wB i r c
            = (if r = i / toyParams.N ∧ c = i % toyParams.N then (-1 : Int) % toyParams.q else 0))
        ∧ (∀ r : Nat, r < toyParams.M → ∀ c : Nat, c < toyParams.N →
          (setPreConstraints toyParams).wC i r c = 0)
        ∧ (setPreConstraints toyParams).K.getD i 0 = 1) := by decide

/-- C7 amended: the chaining family built by setPreConstraints consists of the
L-2 rows i = 3L .. 4L-3 (the loop at lines 152-164 runs for k = L+2 .. 2L-1,
one fewer link than the L-1 accumulation steps), each asserting weight +1 on
the A wire k = i-2L+2 and weight -1 mod q on the C wire k-1 = i-2L+1, with
wB[i] zero and row constant K[i] = 0: the row's weighted dot product over any
witness collapses to (A at wire k) - (C at wire k-1) mod q. -/
theorem chaining_rows_semantics (p : ZParams) (A B C : CBN_matrix)
    (hN : 0 < p.N) (h2L : 2 * p.L ≤ p.M * p.N) (i : Nat)
    (hi1 : 3 * p.L ≤ i) (hi2 : i < 4 * p.L - 2) :
    sumWiresDotWs (withWitness p (setPreConstraints p) A B C) i
      = (A ((i - 2 * p.L + 2) / p.N) ((i - 2 * p.L + 2) % p.N)
          - C ((i - 2 * p.L + 1) / p.N) ((i - 2 * p.L + 1) % p.N)) % p.q
    ∧ (setPreConstraints p).K.getD i 0 = 0 := by
  have hL3 : 3 ≤ p.L := by omega
  have hKpart : (setPreConstraints p).K.getD i 0 = 0 := by
    show (tK p).getD i 0 = 0
    rw [tK_getD p i (by omega), if_neg (by omega), if_neg (by omega),
      if_neg (by omega), if_neg (by omega)]
  refine ⟨?_, hKpart⟩
  have hkpos : (i - 2 * p.L + 2) % p.N < p.N := Nat.mod_lt _ hN
  have hellpos : (i - 2 * p.L + 1) % p.N < p.N := Nat.mod_lt _ hN
  have hka : (i - 2 * p.L + 2) / p.N < p.M := by
    have h1 : i - 2 * p.L + 2 < p.M * p.N :=
      lt_of_lt_of_le (by omega : i - 2 * p.L + 2 < 2 * p.L) h2L
    rw [Nat.mul_comm p.M p.N] at h1
    exact Nat.div_lt_of_lt_mul h1
  have hkc : (i - 2 * p.L + 1) / p.N < p.M := by
    have h1 : i - 2 * p.L + 1 < p.M * p.N :=
      lt_of_lt_of_le (by omega : i - 2 * p.L + 1 < 2 * p.L) h2L
    rw [Nat.mul_comm p.M p.N] at h1
    exact Nat.div_lt_of_lt_mul h1
  have hwA : ∀ j : Nat, twA p i j
      = fun c => if j = (i - 2 * p.L + 2) / p.N then
          unit_vector ((i - 2 * p.L + 2) % p.N) c else 0 := by
    intro j
    unfold twA
    rw [if_neg (by omega), if_neg (by omega), if_neg (by omega),
      if_neg (by omega), if_pos hi2]
  have hwB : ∀ j : Nat, twB p i j = fun _ => (0 : Int) := by
    intro j
    unfold twB
    rw [if_neg (by omega), if_neg (by omega), if_neg (by omega),
      if_neg (by omega), if_neg (by omega)]
    rfl
  have hwC : ∀ j : Nat, twC p i j
      = fun c => if j = (i - 2 * p.L + 1) / p.N then
          vectorTimesConstant (unit_vector ((i - 2 * p.L + 1) % p.N)) (-1) p.q c else 0 := by
    intro j
    unfold twC
    rw [if_neg (by omega), if_neg (by omega), if_neg (by omega), if_pos hi2]
  unfold sumWiresDotWs
  rw [swdwAux_eq]
  simp only [withWitness_params, withWitness_A, withWitness_B, withWitness_C,
    withWitness_wA, withWitness_wB, withWitness_wC, setPre_wA, setPre_wB, setPre_wC]
  have hsum : sumRange (fun j =>
      dotProduct (A j) (twA p i j) p.N p.q
      + dotProduct (B j) (twB p i j) p.N p.q
      + dotProduct (C j) (twC p i j) p.N p.q) p.M
      = sumRange (fun j => if j = (i - 2 * p.L + 2) / p.N then
            A ((i - 2 * p.L + 2) / p.N) ((i - 2 * p.L + 2) % p.N) % p.q else 0) p.M
        + sumRange (fun j => if j = (i - 2 * p.L + 1) / p.N then
            C ((i - 2 * p.L + 1) / p.N) ((i - 2 * p.L + 1) % p.N) * ((-1) % p.q) % p.q
          else 0) p.M := by
    rw [← sumRange_add]
    refine sumRange_congr (fun j _ => ?_)
    rw [hwA j, hwB j, hwC j, dot_ite_row, dot_ite_row, dot_zero_right]
    by_cases hja : j = (i - 2 * p.L + 2) / p.N
    · by_cases hjc : j = (i - 2 * p.L + 1) / p.N
      · have heq := hja.symm.trans hjc
        rw [if_pos hja, if_pos hjc, if_pos hja, if_pos hjc, hja,
          dot_unit _ _ _ _ hkpos, dot_vtc_unit _ _ _ _ _ hellpos, ← heq]
        ring
      · rw [if_pos hja, if_neg hjc, if_pos hja, if_neg hjc, hja,
          dot_unit _ _ _ _ hkpos]
        ring
    · by_cases hjc : j = (i - 2 * p.L + 1) / p.N
      · rw [if_neg hja, if_pos hjc, if_neg hja, if_pos hjc, hjc,
          dot_vtc_unit _ _ _ _ _ hellpos]
        ring
      · rw [if_neg hja, if_neg hjc, if_neg hja, if_neg hjc]
        ring
  rw [hsum, sumRange_single hka (fun j _ hne => if_neg hne), if_pos rfl,
    sumRange_single hkc (fun j _ hne => if_neg hne), if_pos rfl,
    mulEmodRight, Int.emod_add_emod, Int.add_emod_emod]
  congr 1
  ring

/-- Witness for the C7 amended theorem: toy parameters, zero witness, row
i = 12 = 3L (A wire 6, C wire 5). -/
theorem chaining_rows_semantics_witness :
    sumWiresDotWs (withWitness toyParams (setPreConstraints toyParams) zeroMat zeroMat zeroMat) 12
      = (zeroMat ((12 - 2 * toyParams.L + 2) / toyParams.N) ((12 - 2 * toyParams.L + 2) % toyParams.N)
          - zeroMat ((12 - 2 * toyParams.L + 1) / toyParams.N) ((12 - 2 * toyParams.L + 1) % toyParams.N))
          % toyParams.q
    ∧ (setPreConstraints toyParams).K.getD 12 0 = 0 :=
  chaining_rows_semantics toyParams zeroMat zeroMat zeroMat
    (by decide) (by decide) 12 (by decide) (by decide)

/-- C7 counterexample: counting, at the toy parameters, the template rows that
have the chaining shape — a unit +1 wA weight on an accumulation-range wire s,
wB zero, a single -1 mod q wC weight on wire s-1, and constant 0 — yields 2
rows (rows 12 and 13), not L - 1 = 3 as the claim states. -/
theorem chaining_rows_count_claim_false :
    ¬ ((List.range (4 * toyParams.L)).countP (fun i => decide (∃ s : Nat,
        s < 2 * toyParams.L ∧ toyParams.L + 1 ≤ s ∧
        (∀ r : Nat, r < toyParams.M → ∀ c : Nat, c < toyParams.N →
          (setPreConstraints toyParams).wA i r c
            = (if r = s / toyParams.N ∧ c = s % toyParams.N then 1 else 0)) ∧
        (∀ r : Nat, r < toyParams.M → ∀ c : Nat, c < toyParams.N →
          (setPreConstraints toyParams).wB i r c = 0) ∧
        (∀ r : Nat, r < toyParams.M → ∀ c : Nat, c < toyParams.N →
          (setPreConstraints toyParams).wC i r c
            = (if r = (s - 1) / toyParams.N ∧ c = (s - 1) % toyParams.N
               then (-1 : Int) % toyParams.q else 0)) ∧
        (setPreConstraints toyParams).K.getD i 0 = 0))
      = toyParams.L - 1) := by decide
